import Mathlib

/-!
Shallow embedding of the `pypi-docs-url` resolution pipeline.

The source of truth is `src/pypi_docs_url/core.py` (the orchestrator
`get_intersphinx_url` and its private helpers) together with the module
variants in `src/pypi_docs_url/pypi_api.py`, `src/pypi_docs_url/docs_intersphinx.py`
and `src/pypi_docs_url/github_integration.py`.  Pure string/metadata helpers are
embedded as Lean functions; network calls are abstracted into an explicit
environment record, and the orchestrator threads a log of every request it
issues.  Python code that can raise (attribute errors on unexpectedly shaped
YAML, type errors from `in` on non-strings) is embedded in `Except`.
-/

set_option maxRecDepth 4096

/-- Match a literal pattern at the head of the input; on success return the
rest of the input.  The workhorse for embedding the anchored parts of the
source's regular expressions. -/
def startsWithChars : List Char → List Char → Option (List Char)
  | [], l => some l
  | _ :: _, [] => Option.none
  | p :: ps, c :: cs => if c = p then startsWithChars ps cs else Option.none

/-- Substring containment on character lists. -/
def isInfixOfChars (p : List Char) : List Char → Bool
  | [] => (startsWithChars p []).isSome
  | c :: cs => (startsWithChars p (c :: cs)).isSome || isInfixOfChars p cs

/-- Python `needle in hay` for strings: substring containment. -/
def pyIn (needle hay : String) : Bool :=
  isInfixOfChars needle.data hay.data

/-- Suffix test on character lists. -/
def isSuffixOfChars (p l : List Char) : Bool :=
  (startsWithChars p.reverse l.reverse).isSome

/-- Python `s.lower()`, character by character (the labels and URLs the
pipeline lowercases are ASCII, where Python and Lean agree). -/
def pyLower (s : String) : String :=
  String.mk (s.data.map Char.toLower)

/-- Python whitespace test for `str.strip()`, over the ASCII range. -/
def pySpace (c : Char) : Bool :=
  c = ' ' || c = '\t' || c = '\n' || c = '\r' || c = '\x0b' || c = '\x0c'

/-- Python `s.strip()`: drop leading and trailing whitespace. -/
def pyStrip (s : String) : String :=
  String.mk (((s.data.dropWhile pySpace).reverse.dropWhile pySpace).reverse)

/-- Strip one trailing `.html` or `.htm` suffix, as in
`_try_intersphinx_expansions` / `try_intersphinx_expansions`:
`if trimmed.endswith(".html"): trimmed = trimmed[:-len(".html")]`,
`elif` likewise for `.htm`. -/
def stripHtmlSuffix (s : String) : String :=
  if isSuffixOfChars ".html".data s.data then String.mk (s.data.take (s.data.length - 5))
  else if isSuffixOfChars ".htm".data s.data then String.mk (s.data.take (s.data.length - 4))
  else s

/-- Python `s.rstrip("/")`: drop every trailing `/`. -/
def rstripSlashes (s : String) : String :=
  String.mk ((s.data.reverse.dropWhile (fun c => c = '/')).reverse)

/-- Python `s.strip("/")`: drop leading and trailing `/` characters. -/
def stripSlashesChars (l : List Char) : List Char :=
  ((l.dropWhile (fun c => c = '/')).reverse.dropWhile (fun c => c = '/')).reverse

/-- PackageMetadata: the `info` object of the PyPI JSON body, as the pipeline
reads it — an ordered label-to-URL mapping `project_urls` (a Python dict in
document order, keys distinct) and the optional legacy `home_page` string.
`none` for `home_page` models an absent or JSON-null field. -/
structure PackageMetadata where
  project_urls : List (String × String)
  home_page : Option String
deriving DecidableEq, Repr

/-- Python truthiness of the optional `home_page` string:
`if homepage:` is true exactly for a present, non-empty string. -/
def homepageTruthy (h : Option String) : Bool :=
  match h with
  | Option.none => false
  | some s => !(s = "")

/-- The candidate URL list `list(purls.values())` plus the home page when
truthy, built identically in `find_stable_latest_link` and
`find_github_repo_in_project_urls` (and their `core.py` copies). -/
def urlCandidates (m : PackageMetadata) : List String :=
  m.project_urls.map Prod.snd ++
    (match m.home_page with
     | some h => if h = "" then [] else [h]
     | Option.none => [])

/-- Branch (a) of the doc-link extractor: the first `project_urls` entry
whose lowercased label contains `doc` or `documentation`
(`for label, link in purls.items(): ...`). -/
def docLabelScan (purls : List (String × String)) : Option String :=
  purls.findSome? (fun lv =>
    if pyIn "doc" (pyLower lv.1) || pyIn "documentation" (pyLower lv.1)
    then some lv.2 else Option.none)

/-- Branch (b) of the doc-link extractor: the exact key lookup
`if "Documentation" in purls: return purls["Documentation"]`. -/
def exactDocScan (purls : List (String × String)) : Option String :=
  purls.findSome? (fun lv => if lv.1 = "Documentation" then some lv.2 else Option.none)

/-- Branch (c) of the doc-link extractor: the truthy home page when its
lowercased text contains `readthedocs` or `docs`. -/
def homepageDocHint (home : Option String) : Option String :=
  match home with
  | some hp =>
    if !(hp = "") && (pyIn "readthedocs" (pyLower hp) || pyIn "docs" (pyLower hp))
    then some hp else Option.none
  | Option.none => Option.none

/-- Branch (d) of the doc-link extractor: the first `project_urls` value
containing `stable` or `latest`. -/
def stableValueScan (purls : List (String × String)) : Option String :=
  purls.findSome? (fun lv =>
    if pyIn "stable" lv.2 || pyIn "latest" lv.2 then some lv.2 else Option.none)

/-- Embeds `core.py _find_doc_url_candidate` (the variant the orchestrator
calls; it has no final home-page fallback).  Branches (a)-(d) in source
order. -/
def core_find_doc_url_candidate (m : PackageMetadata) : Option String :=
  match docLabelScan m.project_urls with
  | some link => some link
  | Option.none =>
    match exactDocScan m.project_urls with
    | some link => some link
    | Option.none =>
      match homepageDocHint m.home_page with
      | some hp => some hp
      | Option.none => stableValueScan m.project_urls

/-- The `core.py` doc-link extractor with the exact-key branch (b) removed,
for the redundancy comparison. -/
def core_find_doc_url_candidate_noexact (m : PackageMetadata) : Option String :=
  match docLabelScan m.project_urls with
  | some link => some link
  | Option.none =>
    match homepageDocHint m.home_page with
    | some hp => some hp
    | Option.none => stableValueScan m.project_urls

/-- Embeds `pypi_api.py find_doc_url_candidate`: identical to the `core.py`
variant up to branch (d), plus the final fallback (e) returning the truthy
home page verbatim. -/
def find_doc_url_candidate (m : PackageMetadata) : Option String :=
  match core_find_doc_url_candidate m with
  | some link => some link
  | Option.none =>
    match m.home_page with
    | some hp => if hp = "" then Option.none else some hp
    | Option.none => Option.none

/-- The `pypi_api.py` doc-link extractor with the exact-key branch (b)
removed, for the redundancy comparison. -/
def find_doc_url_candidate_noexact (m : PackageMetadata) : Option String :=
  match core_find_doc_url_candidate_noexact m with
  | some link => some link
  | Option.none =>
    match m.home_page with
    | some hp => if hp = "" then Option.none else some hp
    | Option.none => Option.none

example : core_find_doc_url_candidate
    ⟨[("Source", "https://example.org/src")], some "https://example.org"⟩ =
    Option.none := by decide

example : find_doc_url_candidate
    ⟨[("Source", "https://example.org/src")], some "https://example.org"⟩ =
    some "https://example.org" := by decide

example : core_find_doc_url_candidate
    ⟨[("Docs", "https://a"), ("Documentation", "https://b")], Option.none⟩ =
    some "https://a" := by decide

/-- Is the remainder a valid boundary for the regex tail in
`(.*?)/(stable|latest)(?:/|$)`: end of string or a path separator. -/
def boundaryOk : List Char → Bool
  | [] => true
  | c :: _ => c = '/' 

/-- Does a qualifying segment start here: `/stable` or `/latest` followed by
`/` or the end of the string?  Returns the segment name.  The two
alternatives differ in their second character, so at most one can match. -/
def segHere (l : List Char) : Option String :=
  match startsWithChars "/stable".data l with
  | some rest => if boundaryOk rest then some "stable" else Option.none
  | Option.none =>
    match startsWithChars "/latest".data l with
    | some rest => if boundaryOk rest then some "latest" else Option.none
    | Option.none => Option.none

/-- Embeds `re.search(r"(.*?)/(stable|latest)(?:/|$)", link)` followed by
`match.group(1) + "/" + match.group(2)`: the lazy `.*?` makes the search
return the leftmost position at which `/stable` or `/latest` (followed by a
separator or the end) starts; the accumulated prefix is group 1.  Exact for
links without a newline character (regex `.` excludes newlines). -/
def scanStableLatest : List Char → List Char → Option String
  | _, [] => Option.none
  | pre, c :: cs =>
    match segHere (c :: cs) with
    | some seg => some (String.mk pre ++ "/" ++ seg)
    | Option.none => scanStableLatest (pre ++ [c]) cs

/-- The per-link trimming rule of `find_stable_latest_link`. -/
def searchStableLatest (link : String) : Option String :=
  scanStableLatest [] link.data

/-- Embeds `find_stable_latest_link` (identical in `core.py` and
`pypi_api.py`): first candidate URL with a `/stable` or `/latest` path
segment, trimmed just after that segment.  Non-string candidate values
cannot arise in the typed metadata model, so the `isinstance` guard of the
source is vacuous here. -/
def find_stable_latest_link (m : PackageMetadata) : Option String :=
  (urlCandidates m).findSome? searchStableLatest

/-- Embeds `find_github_repo_in_project_urls` (identical in `core.py` and
`pypi_api.py`): first candidate URL whose lowercased text contains
`github.com`. -/
def find_github_repo_in_project_urls (m : PackageMetadata) : Option String :=
  (urlCandidates m).find? (fun link => pyIn "github.com" (pyLower link))

/-- List-level body of `removesuffix(".git")`: remove one trailing `.git`
if present (Python returns the string unchanged otherwise). -/
def removeGitSuffix (seg : List Char) : List Char :=
  if isSuffixOfChars ".git".data seg then seg.take (seg.length - 4) else seg

/-- Embeds `parse_github_repo_url` (identical in `core.py` and
`github_integration.py`):
`re.match(r"https://github\.com/([^/]+)/([^/]+)", link)`, then
`(m.group(1), m.group(2).removesuffix(".git"))`.  `[^/]+` is a maximal
non-empty run of non-separator characters, embedded with `takeWhile`. -/
def parse_github_repo_url (link : String) : Option (String × String) :=
  match startsWithChars "https://github.com/".data link.data with
  | Option.none => Option.none
  | some rest =>
    let org := rest.takeWhile (fun c => !(c = '/'))
    if org = [] then Option.none
    else
      match rest.dropWhile (fun c => !(c = '/')) with
      | '/' :: rest2 =>
        let repoSeg := rest2.takeWhile (fun c => !(c = '/'))
        if repoSeg = [] then Option.none
        else some (String.mk org, String.mk (removeGitSuffix repoSeg))
      | _ => Option.none

/-- Host extraction shared by `parse_domain_from_url` after the scheme has
been matched: `([^/]+)/` — a non-empty host followed by a mandatory `/`. -/
def domainOf (rest : List Char) : Option String :=
  let host := rest.takeWhile (fun c => !(c = '/'))
  if host = [] then Option.none
  else
    match rest.dropWhile (fun c => !(c = '/')) with
    | '/' :: _ => some (String.mk host)
    | _ => Option.none

/-- Embeds `parse_domain_from_url` (identical in `core.py` and
`docs_intersphinx.py`): `re.match(r"https?://([^/]+)/", url.strip())`. -/
def parse_domain_from_url (url : String) : Option String :=
  match startsWithChars "https://".data (pyStrip url).data with
  | some rest => domainOf rest
  | Option.none =>
    match startsWithChars "http://".data (pyStrip url).data with
    | some rest => domainOf rest
    | Option.none => Option.none

example : searchStableLatest "https://docs.pytest.org/en/stable/changelog.html" =
    some "https://docs.pytest.org/en/stable" := by decide

example : searchStableLatest "https://x.org/stable/latest" =
    some "https://x.org/stable" := by decide

example : searchStableLatest "https://x.org/unstable/x" = Option.none := by decide

example : parse_github_repo_url "https://github.com/pola-rs/polars.git" =
    some ("pola-rs", "polars") := by decide

example : parse_github_repo_url "https://github.com/pola-rs/polars/issues" =
    some ("pola-rs", "polars") := by decide

example : parse_github_repo_url "https://gitlab.com/x/y" = Option.none := by decide

example : parse_github_repo_url "https://github.com/org/.git" =
    some ("org", "") := by decide

example : parse_domain_from_url "https://docs.pytest.org/en/stable/x.html" =
    some "docs.pytest.org" := by decide

example : parse_domain_from_url "https://docs.pytest.org" = Option.none := by decide

/-- Python exceptions the pipeline can actually raise: attribute errors
(calling `.get` or `.strip` on a non-dict/non-str) and type errors
(iterating a non-iterable, `in` against an int/bool/None). -/
inductive PyErr where
  | attributeError
  | typeError
deriving DecidableEq, Repr

/-- Result of `yaml.safe_load` on the workflow text: scalars, sequences and
mappings.  A mapping models a Python dict in document order with distinct
keys; non-string keys cannot address the string lookups the parser performs
and are not represented. -/
inductive Yaml where
  | none
  | bool (b : Bool)
  | int (n : Int)
  | str (s : String)
  | list (xs : List Yaml)
  | map (kvs : List (String × Yaml))

/-- Ordered-dict lookup for `Yaml.map`. -/
def lookupKvs : List (String × Yaml) → String → Option Yaml
  | [], _ => Option.none
  | (k, v) :: rest, key => if k = key then some v else lookupKvs rest key

/-- Python `container.get(key, default)`: dict lookup with default, an
`AttributeError` on anything that is not a dict. -/
def yamlGet : Yaml → String → Yaml → Except PyErr Yaml
  | Yaml.map kvs, key, dflt => Except.ok ((lookupKvs kvs key).getD dflt)
  | _, _, _ => Except.error PyErr.attributeError

/-- Python truthiness of a YAML value. -/
def yamlTruthy : Yaml → Bool
  | Yaml.none => false
  | Yaml.bool b => b
  | Yaml.int n => !(n = 0)
  | Yaml.str s => !(s = "")
  | Yaml.list xs => !xs.isEmpty
  | Yaml.map kvs => !kvs.isEmpty

/-- Python `==` between a YAML value and a string literal. -/
def yamlEqStr : Yaml → String → Bool
  | Yaml.str t, s => t = s
  | _, _ => false

/-- Python `needle in v` for a string needle: substring test on strings,
membership on lists, key membership on dicts, `TypeError` otherwise. -/
def pyInYaml : String → Yaml → Except PyErr Bool
  | needle, Yaml.str s => Except.ok (pyIn needle s)
  | needle, Yaml.list xs => Except.ok (xs.any (fun x => yamlEqStr x needle))
  | needle, Yaml.map kvs => Except.ok (kvs.any (fun kv => kv.1 = needle))
  | _, _ => Except.error PyErr.typeError

/-- Python `for x in v`: lists yield their elements, dicts their keys,
strings their characters; anything else raises `TypeError`. -/
def yamlIter : Yaml → Except PyErr (List Yaml)
  | Yaml.list xs => Except.ok xs
  | Yaml.map kvs => Except.ok (kvs.map (fun kv => Yaml.str kv.1))
  | Yaml.str s => Except.ok (s.data.map (fun c => Yaml.str (String.mk [c])))
  | _ => Except.error PyErr.typeError

/-- The step loop of `parse_stable_subfolder`: for each step take
`w = step.get("with")`; when `w` is a dict and `tf = w.get("target-folder")`
is truthy with `"stable" in tf`, return `tf`; otherwise continue. -/
def stableStepLoop : List Yaml → Except PyErr (Option Yaml)
  | [] => Except.ok Option.none
  | step :: rest =>
    match yamlGet step "with" Yaml.none with
    | Except.error e => Except.error e
    | Except.ok w =>
      match w with
      | Yaml.map wkvs =>
        let tf := (lookupKvs wkvs "target-folder").getD Yaml.none
        if yamlTruthy tf then
          match pyInYaml "stable" tf with
          | Except.error e => Except.error e
          | Except.ok b => if b then Except.ok (some tf) else stableStepLoop rest
        else stableStepLoop rest
      | _ => stableStepLoop rest

/-- The prelude of `parse_stable_subfolder`:
`config.get("jobs", {})`, `.get("build-python-docs", {})`,
`.get("steps", [])`, then the iteration over the steps. -/
def docSteps (config : Yaml) : Except PyErr (List Yaml) :=
  match yamlGet config "jobs" (Yaml.map []) with
  | Except.error e => Except.error e
  | Except.ok jobs =>
    match yamlGet jobs "build-python-docs" (Yaml.map []) with
    | Except.error e => Except.error e
    | Except.ok build_job =>
      match yamlGet build_job "steps" (Yaml.list []) with
      | Except.error e => Except.error e
      | Except.ok steps => yamlIter steps

/-- Embeds `parse_stable_subfolder` (identical in `core.py` and
`github_integration.py`).  The input is the outcome of
`yaml.safe_load(workflow_text)`: `Option.none` models a `yaml.YAMLError`,
which the source catches and converts to `None`; any other exception
escapes. -/
def parse_stable_subfolder (parsed : Option Yaml) : Except PyErr (Option Yaml) :=
  match parsed with
  | Option.none => Except.ok Option.none
  | some config =>
    match docSteps config with
    | Except.error e => Except.error e
    | Except.ok steps => stableStepLoop steps

example : parse_stable_subfolder (some (Yaml.str "hello")) =
    Except.error PyErr.attributeError := rfl

example : parse_stable_subfolder Option.none = Except.ok Option.none := rfl

example : parse_stable_subfolder (some (Yaml.map [("jobs", Yaml.map
    [("build-python-docs", Yaml.map [("steps", Yaml.list
      [Yaml.map [("with", Yaml.map [("target-folder", Yaml.str "api/python/stable")])]])])])])) =
    Except.ok (some (Yaml.str "api/python/stable")) := rfl

/-- One outbound network request of the pipeline. -/
inductive Request where
  | getPypi (pkg : String)
  | headReq (url : String)
  | getWorkflow (org repo : String)
deriving DecidableEq, Repr

/-- The upstream world the resolver talks to.
`pypi pkg` is the typed body of `GET https://pypi.org/pypi/pkg/json`
(`Option.none` models any `requests.RequestException` or a falsy body, both
of which `_fetch_pypi_json`/`get_intersphinx_url` turn into an early `None`).
`head url` is the outcome of `session.head(url, ...)`: `Option.none` a
connection failure, `some c` a status code.
`workflow org repo` is the outcome of `_fetch_docs_python_yml` composed with
`yaml.safe_load`: outer `Option.none` a non-200 or failed fetch, inner
`Option.none` a `yaml.YAMLError` on the fetched text. -/
structure Env where
  pypi : String → Option PackageMetadata
  head : String → Option Nat
  workflow : String → String → Option (Option Yaml)

/-- The loop of `_try_intersphinx_expansions`/`try_intersphinx_expansions`:
HEAD `trimmed + "/" + path` for each path in order, returning the first URL
answering 200; connection errors and non-200 codes fall through to the next
path.  The second component logs every request issued. -/
def headLoopLog (env : Env) (trimmed : String) : List String → Option String × List Request
  | [] => (Option.none, [])
  | path :: rest =>
    let testUrl := trimmed ++ "/" ++ path
    if env.head testUrl = some 200 then (some testUrl, [Request.headReq testUrl])
    else
      let r := headLoopLog env trimmed rest
      (r.1, Request.headReq testUrl :: r.2)

/-- The normalization both expansion functions apply to `base_url`:
`strip()`, drop one `.html`/`.htm` suffix, `rstrip("/")`. -/
def normalizeBase (base_url : String) : String :=
  rstripSlashes (stripHtmlSuffix (pyStrip base_url))

/-- The expansion suffixes of `core.py _try_intersphinx_expansions` (the copy
the orchestrator calls): five entries. -/
def coreExpansions : List String :=
  ["objects.inv", "stable/objects.inv", "en/stable/objects.inv",
   "latest/objects.inv", "en/latest/objects.inv"]

/-- The expansion suffixes of `docs_intersphinx.py try_intersphinx_expansions`:
the five above plus `doc/objects.inv` and `docs/objects.inv`. -/
def moduleExpansions : List String :=
  ["objects.inv", "stable/objects.inv", "en/stable/objects.inv",
   "latest/objects.inv", "en/latest/objects.inv",
   "doc/objects.inv", "docs/objects.inv"]

/-- Embeds `core.py _try_intersphinx_expansions`, with its request log. -/
def core_try_intersphinx_expansions (env : Env) (base_url : String) :
    Option String × List Request :=
  headLoopLog env (normalizeBase base_url) coreExpansions

/-- Embeds `docs_intersphinx.py try_intersphinx_expansions` (the Inventory
Prober with the full seven-entry suffix list). -/
def try_intersphinx_expansions (env : Env) (base_url : String) : Option String :=
  (headLoopLog env (normalizeBase base_url) moduleExpansions).1

/-- Python `stable_tf.strip("/")`: defined on strings, an `AttributeError`
on any other value `parse_stable_subfolder` may hand back. -/
def pyStripSlashesY : Yaml → Except PyErr String
  | Yaml.str s => Except.ok (String.mk (stripSlashesChars s.data))
  | _ => Except.error PyErr.attributeError

/-- One iteration of the domain loop in `get_intersphinx_url`: skip a falsy
candidate, otherwise keep a truthy extracted domain. -/
def domainFromCandidate (c : Option String) : Option String :=
  match c with
  | Option.none => Option.none
  | some s =>
    if s = "" then Option.none
    else
      match parse_domain_from_url s with
      | some d => if d = "" then Option.none else some d
      | Option.none => Option.none

/-- The `for candidate in (doc_candidate, stable_candidate)` loop of
`get_intersphinx_url`: first truthy domain wins. -/
def pickDomain (doc_candidate stable_candidate : Option String) : Option String :=
  match domainFromCandidate doc_candidate with
  | some d => some d
  | Option.none => domainFromCandidate stable_candidate

/-- Steps B/C helper of the orchestrator: a truthy candidate is pushed
through the five-suffix expansions, a falsy or absent candidate is skipped
(`if doc_candidate:` / `if stable_candidate:`). -/
def probeCandidate (env : Env) : Option String → Option String × List Request
  | some c => if c = "" then (Option.none, []) else core_try_intersphinx_expansions env c
  | Option.none => (Option.none, [])

/-- Step D of the orchestrator (`core.py get_intersphinx_url` lines 44-98):
the GitHub workflow fallback, given the two candidates computed by steps B
and C.  Returns its own request log (workflow fetch, confirming HEAD). -/
def stepD (env : Env) (data : PackageMetadata)
    (doc_candidate stable_candidate : Option String) :
    Except PyErr (Option String) × List Request :=
  match find_github_repo_in_project_urls data with
  | Option.none => (Except.ok Option.none, [])
  | some gh_repo_link =>
    if gh_repo_link = "" then (Except.ok Option.none, [])
    else
      match parse_github_repo_url gh_repo_link with
      | Option.none => (Except.ok Option.none, [])
      | some orgrepo =>
        match env.workflow orgrepo.1 orgrepo.2 with
        | Option.none => (Except.ok Option.none, [Request.getWorkflow orgrepo.1 orgrepo.2])
        | some parsedWf =>
          match parse_stable_subfolder parsedWf with
          | Except.error e => (Except.error e, [Request.getWorkflow orgrepo.1 orgrepo.2])
          | Except.ok Option.none =>
            (Except.ok Option.none, [Request.getWorkflow orgrepo.1 orgrepo.2])
          | Except.ok (some tf) =>
            if !(yamlTruthy tf) then
              (Except.ok Option.none, [Request.getWorkflow orgrepo.1 orgrepo.2])
            else
              match pyStripSlashesY tf with
              | Except.error e => (Except.error e, [Request.getWorkflow orgrepo.1 orgrepo.2])
              | Except.ok stable_tf =>
                if env.head ("https://" ++ (pickDomain doc_candidate stable_candidate).getD "docs.pola.rs"
                    ++ "/" ++ stable_tf ++ "/objects.inv") = some 200 then
                  (Except.ok (some ("https://" ++ (pickDomain doc_candidate stable_candidate).getD "docs.pola.rs"
                      ++ "/" ++ stable_tf ++ "/objects.inv")),
                   [Request.getWorkflow orgrepo.1 orgrepo.2,
                    Request.headReq ("https://" ++ (pickDomain doc_candidate stable_candidate).getD "docs.pola.rs"
                      ++ "/" ++ stable_tf ++ "/objects.inv")])
                else
                  (Except.ok Option.none,
                   [Request.getWorkflow orgrepo.1 orgrepo.2,
                    Request.headReq ("https://" ++ (pickDomain doc_candidate stable_candidate).getD "docs.pola.rs"
                      ++ "/" ++ stable_tf ++ "/objects.inv")])

/-- Steps B, C and D of the orchestrator, after a successful metadata
fetch. -/
def stepsBCD (env : Env) (data : PackageMetadata) :
    Except PyErr (Option String) × List Request :=
  let doc_candidate := core_find_doc_url_candidate data
  let resB := probeCandidate env doc_candidate
  match resB.1 with
  | some inv_url => (Except.ok (some inv_url), resB.2)
  | Option.none =>
    let stable_candidate := find_stable_latest_link data
    let resC := probeCandidate env stable_candidate
    match resC.1 with
    | some inv_url => (Except.ok (some inv_url), resB.2 ++ resC.2)
    | Option.none =>
      let resD := stepD env data doc_candidate stable_candidate
      (resD.1, resB.2 ++ resC.2 ++ resD.2)

/-- Embeds the orchestrator `core.py get_intersphinx_url`, threading the
ordered list of network requests it issues.  Steps as in the source:
(A) fetch the PyPI JSON — a fetch failure or falsy body is an early absent
result; (B) doc-labeled candidate through the five-suffix expansions;
(C) stable/latest candidate through the same expansions; (D) GitHub
fallback — find a GitHub link, parse org/repo, fetch and parse the
workflow, guess `https://<domain>/<subfolder>/objects.inv` with the domain
defaulting to the hard-coded `docs.pola.rs`, and confirm with a single
HEAD. -/
def get_intersphinx_url (env : Env) (package_name : String) :
    Except PyErr (Option String) × List Request :=
  match env.pypi package_name with
  | Option.none => (Except.ok Option.none, [Request.getPypi package_name])
  | some data =>
    let r := stepsBCD env data
    (r.1, Request.getPypi package_name :: r.2)

/-- Workflow document with a `build-python-docs` job whose deploy step
targets `api/python/stable` — the polars-style fixture. -/
def wfStableDoc : Yaml :=
  Yaml.map [("jobs", Yaml.map
    [("build-python-docs", Yaml.map [("steps", Yaml.list
      [Yaml.map [("with", Yaml.map [("target-folder", Yaml.str "api/python/stable")])]])])])]

/-- Environment for the hard-coded-domain scenario: metadata carries only a
repository link (no doc-labeled link, no home page), the workflow parses to
a stable target folder, and the host `docs.pola.rs` — which appears nowhere
in the metadata — answers 200 for the guessed inventory URL. -/
def envHardcoded : Env where
  pypi := fun p => if p = "polars"
    then some ⟨[("Repository", "https://github.com/pola-rs/polars")], Option.none⟩
    else Option.none
  head := fun u => if u = "https://docs.pola.rs/api/python/stable/objects.inv"
    then some 200 else Option.none
  workflow := fun o r => if o = "pola-rs" && r = "polars"
    then some (some wfStableDoc) else Option.none

/-- Environment for the escaping-exception scenario: the fetched workflow
text is valid YAML but a bare scalar (`hello`), so `config.get("jobs", {})`
raises an `AttributeError` inside `_parse_stable_subfolder`. -/
def envScalarWorkflow : Env where
  pypi := fun p => if p = "pkg"
    then some ⟨[("Repository", "https://github.com/org/repo")], Option.none⟩
    else Option.none
  head := fun _ => Option.none
  workflow := fun o r => if o = "org" && r = "repo"
    then some (some (Yaml.str "hello")) else Option.none

example : get_intersphinx_url envHardcoded "polars" =
    (Except.ok (some "https://docs.pola.rs/api/python/stable/objects.inv"),
     [Request.getPypi "polars", Request.getWorkflow "pola-rs" "polars",
      Request.headReq "https://docs.pola.rs/api/python/stable/objects.inv"]) := rfl

example : get_intersphinx_url envScalarWorkflow "pkg" =
    (Except.error PyErr.attributeError,
     [Request.getPypi "pkg", Request.getWorkflow "org" "repo"]) := rfl

theorem startsWithChars_some_iff :
    ∀ (p l r : List Char), startsWithChars p l = some r ↔ l = p ++ r := by
  intro p
  induction p with
  | nil =>
    intro l r
    constructor
    · intro h; cases h; rfl
    · intro h; rw [h]; rfl
  | cons a ps ih =>
    intro l r
    cases l with
    | nil =>
      constructor
      · intro h; exact absurd h (by simp [startsWithChars])
      · intro h; exact absurd h (by simp)
    | cons c cs =>
      constructor
      · intro h
        unfold startsWithChars at h
        by_cases hc : c = a
        · rw [if_pos hc] at h
          rw [hc, List.cons_append, (ih cs r).mp h]
        · rw [if_neg hc] at h; exact absurd h (by simp)
      · intro h
        rw [List.cons_append] at h
        injection h with h1 h2
        unfold startsWithChars
        rw [if_pos h1]
        exact (ih cs r).mpr h2

theorem isSuffixOfChars_iff (p l : List Char) :
    isSuffixOfChars p l = true ↔ ∃ t, l = t ++ p := by
  unfold isSuffixOfChars
  rw [Option.isSome_iff_exists]
  constructor
  · rintro ⟨r, hr⟩
    rw [startsWithChars_some_iff] at hr
    refine ⟨r.reverse, ?_⟩
    rw [List.reverse_eq_iff] at hr
    rw [hr]; simp
  · rintro ⟨t, ht⟩
    refine ⟨t.reverse, ?_⟩
    rw [startsWithChars_some_iff, ht]
    simp

theorem docLabelScan_none_exactDocScan_none :
    ∀ purls : List (String × String),
    docLabelScan purls = Option.none → exactDocScan purls = Option.none := by
  intro purls
  induction purls with
  | nil => intro _; rfl
  | cons kv rest ih =>
    intro h
    unfold docLabelScan at h
    unfold exactDocScan
    rw [List.findSome?_cons] at h ⊢
    cases hg : (if pyIn "doc" (pyLower kv.1) || pyIn "documentation" (pyLower kv.1)
        then some kv.2 else Option.none) with
    | some v => rw [hg] at h; exact absurd h (by simp)
    | none =>
      rw [hg] at h
      have hne : ¬ kv.1 = "Documentation" := by
        intro he
        rw [he] at hg
        have : pyIn "doc" (pyLower "Documentation") = true := by decide
        simp [this] at hg
      rw [if_neg hne]
      exact ih h

/-- C9: removing the exact-key `Documentation` branch from the doc-link
extractor does not change its result, in either the orchestrator's copy or
the module copy: a mapping containing the key `Documentation` is always
caught earlier by the substring scan over lowercased labels. -/
theorem C9_exact_documentation_branch_redundant (m : PackageMetadata) :
    core_find_doc_url_candidate_noexact m = core_find_doc_url_candidate m ∧
    find_doc_url_candidate_noexact m = find_doc_url_candidate m := by
  have hcore : core_find_doc_url_candidate_noexact m = core_find_doc_url_candidate m := by
    unfold core_find_doc_url_candidate_noexact core_find_doc_url_candidate
    cases hd : docLabelScan m.project_urls with
    | some link => rfl
    | none => rw [docLabelScan_none_exactDocScan_none _ hd]
  refine ⟨hcore, ?_⟩
  unfold find_doc_url_candidate_noexact find_doc_url_candidate
  rw [hcore]

/-- C1 (code bug): with metadata exposing only a repository link — so
neither the doc-link candidate nor the stable/latest candidate exists — and
a workflow that yields a stable target folder, the orchestrator does not
fail: it silently defaults the domain to the hard-coded `docs.pola.rs` and
returns a final URL built from that host, contradicting the required
"cannot determine target domain" failure. -/
theorem C1_hardcoded_domain_fallback_bug :
    core_find_doc_url_candidate
      ⟨[("Repository", "https://github.com/pola-rs/polars")], Option.none⟩ = Option.none ∧
    find_stable_latest_link
      ⟨[("Repository", "https://github.com/pola-rs/polars")], Option.none⟩ = Option.none ∧
    get_intersphinx_url envHardcoded "polars" =
      (Except.ok (some "https://docs.pola.rs/api/python/stable/objects.inv"),
       [Request.getPypi "polars", Request.getWorkflow "pola-rs" "polars",
        Request.headReq "https://docs.pola.rs/api/python/stable/objects.inv"]) :=
  ⟨rfl, rfl, rfl⟩

/-- C2 (code bug): a workflow document that parses as valid YAML but is a
bare scalar makes `parse_stable_subfolder` raise an `AttributeError`
(`config.get` on a non-dict), and the exception escapes
`get_intersphinx_url` instead of degrading to an absent result. -/
theorem C2_unexpected_shape_workflow_raises :
    parse_stable_subfolder (some (Yaml.str "hello")) = Except.error PyErr.attributeError ∧
    (get_intersphinx_url envScalarWorkflow "pkg").1 = Except.error PyErr.attributeError :=
  ⟨rfl, rfl⟩

/-- Metadata with no doc-labeled entry, a home page free of `readthedocs`
and `docs`, and no `stable`/`latest` value — the configuration of the C5
final-fallback claim. -/
def metaNoDocHints : PackageMetadata :=
  ⟨[("Source", "https://example.org/src")], some "https://example.org"⟩

/-- C5 counterexample: the doc-link extractor the orchestrator actually
calls (`core.py _find_doc_url_candidate`) has no final home-page fallback;
on metadata where only the legacy home page is available it returns `None`
rather than the home page verbatim. -/
theorem C5_orchestrator_no_homepage_fallback :
    core_find_doc_url_candidate metaNoDocHints ≠ some "https://example.org" ∧
    core_find_doc_url_candidate metaNoDocHints = Option.none :=
  ⟨by decide, by decide⟩

/-- C5 amended: under the claim's hypotheses the module-level extractor
`pypi_api.find_doc_url_candidate` does return the (non-empty) legacy home
page verbatim and returns `None` when it is absent, while the extractor the
orchestrator calls returns `None` unconditionally. -/
theorem C5_amended_final_fallback (m : PackageMetadata)
    (h1 : ∀ lv ∈ m.project_urls,
      pyIn "doc" (pyLower lv.1) = false ∧ pyIn "documentation" (pyLower lv.1) = false)
    (h2 : ∀ s, m.home_page = some s →
      pyIn "readthedocs" (pyLower s) = false ∧ pyIn "docs" (pyLower s) = false)
    (h3 : ∀ lv ∈ m.project_urls,
      pyIn "stable" lv.2 = false ∧ pyIn "latest" lv.2 = false) :
    core_find_doc_url_candidate m = Option.none ∧
    (∀ s, m.home_page = some s → s ≠ "" → find_doc_url_candidate m = some s) ∧
    (m.home_page = Option.none → find_doc_url_candidate m = Option.none) := by
  have ha : docLabelScan m.project_urls = Option.none := by
    unfold docLabelScan
    rw [List.findSome?_eq_none_iff]
    intro lv hlv
    rcases h1 lv hlv with ⟨hd1, hd2⟩
    rw [hd1, hd2]
    rfl
  have hb : exactDocScan m.project_urls = Option.none :=
    docLabelScan_none_exactDocScan_none _ ha
  have hc : homepageDocHint m.home_page = Option.none := by
    unfold homepageDocHint
    cases hh : m.home_page with
    | none => rfl
    | some s =>
      rcases h2 s hh with ⟨hr1, hr2⟩
      simp [hr1, hr2]
  have hd : stableValueScan m.project_urls = Option.none := by
    unfold stableValueScan
    rw [List.findSome?_eq_none_iff]
    intro lv hlv
    rcases h3 lv hlv with ⟨hs1, hs2⟩
    rw [hs1, hs2]
    rfl
  have hcore : core_find_doc_url_candidate m = Option.none := by
    unfold core_find_doc_url_candidate
    rw [ha, hb, hc, hd]
  refine ⟨hcore, ?_, ?_⟩
  · intro s hs hne
    unfold find_doc_url_candidate
    rw [hcore, hs]
    simp [hne]
  · intro hs
    unfold find_doc_url_candidate
    rw [hcore, hs]

/-- Witness for the amended C5 at concrete metadata: the module extractor
falls back to the home page, the orchestrator's extractor does not. -/
theorem C5_amended_final_fallback_witness :
    core_find_doc_url_candidate metaNoDocHints = Option.none ∧
    find_doc_url_candidate metaNoDocHints = some "https://example.org" := by
  have h := C5_amended_final_fallback metaNoDocHints
    (by decide) (by intro s hs; cases hs; exact (by decide)) (by decide)
  exact ⟨h.1, h.2.1 "https://example.org" rfl (by decide)⟩

/-- C7: when the fetched metadata has an empty (or absent) `project_urls`
mapping and no legacy home page, the resolver returns absent and the one
registry metadata fetch is the only network request issued. -/
theorem C7_no_links_single_fetch (env : Env) (pkg : String)
    (h : env.pypi pkg = some ⟨[], Option.none⟩) :
    get_intersphinx_url env pkg = (Except.ok Option.none, [Request.getPypi pkg]) := by
  unfold get_intersphinx_url
  rw [h]
  rfl

/-- Environment whose only known package has fully empty link metadata. -/
def envNoLinks : Env where
  pypi := fun p => if p = "empty-pkg" then some ⟨[], Option.none⟩ else Option.none
  head := fun _ => Option.none
  workflow := fun _ _ => Option.none

/-- Witness for C7 at a concrete environment. -/
theorem C7_no_links_single_fetch_witness :
    get_intersphinx_url envNoLinks "empty-pkg" =
      (Except.ok Option.none, [Request.getPypi "empty-pkg"]) :=
  C7_no_links_single_fetch envNoLinks "empty-pkg" rfl

/-- C8 counterexample: the Repository Locator can return an empty repository
component — on `https://github.com/org/.git` the second path segment is
exactly `.git`, and `removesuffix(".git")` leaves the empty string — so the
claimed non-emptiness invariant fails. -/
theorem C8_empty_repo_counterexample :
    ¬ (∀ link o r, parse_github_repo_url link = some (o, r) → o ≠ "" ∧ r ≠ "") :=
  fun h => ((h "https://github.com/org/.git" "org" "" (by decide)).2) rfl

/-- Amended invariant of the Repository Locator: the organization is
non-empty, neither component contains `/`, and the repository equals the
second path segment (a maximal non-empty run of non-separator characters,
followed by a separator or the end of the matched region) with one trailing
`.git` removed — which makes the repository empty exactly when that segment
is `.git` itself. -/
def RepoRefInvariant (link o r : String) : Prop :=
  o ≠ "" ∧ (∀ c ∈ o.data, c ≠ '/') ∧ (∀ c ∈ r.data, c ≠ '/') ∧
  ∃ seg rest, link.data = "https://github.com/".data ++ o.data ++ '/' :: (seg ++ rest) ∧
    seg ≠ [] ∧ (∀ c ∈ seg, c ≠ '/') ∧ (rest = [] ∨ rest.head? = some '/') ∧
    ((∃ t, seg = t ++ ".git".data ∧ r.data = t) ∨
      ((¬ ∃ t, seg = t ++ ".git".data) ∧ r.data = seg)) ∧
    (r = "" → seg = ".git".data)

/-- C8 amended: every successful parse satisfies the invariant above (the
original claim additionally asserted a non-empty repository, which the
`.git`-segment counterexample refutes). -/
theorem C8_amended_repo_invariant (link o r : String)
    (h : parse_github_repo_url link = some (o, r)) : RepoRefInvariant link o r := by
  unfold parse_github_repo_url at h
  cases hs : startsWithChars "https://github.com/".data link.data with
  | none => rw [hs] at h; exact absurd h (by simp)
  | some rest =>
    rw [hs] at h
    simp only at h
    by_cases horg : rest.takeWhile (fun c => !(c = '/')) = []
    · rw [if_pos horg] at h; exact absurd h (by simp)
    · rw [if_neg horg] at h
      cases hdrop : rest.dropWhile (fun c => !(c = '/')) with
      | nil => rw [hdrop] at h; exact absurd h (by simp)
      | cons c rest2 =>
        have hc : c = '/' := by
          have hnot := List.head?_dropWhile_not (fun c => !(c = '/')) rest
          rw [hdrop] at hnot
          simp only [List.head?] at hnot
          simpa using hnot
        subst hc
        rw [hdrop] at h
        simp only at h
        by_cases hseg : rest2.takeWhile (fun c => !(c = '/')) = []
        · rw [if_pos hseg] at h; exact absurd h (by simp)
        · rw [if_neg hseg] at h
          simp only [Option.some.injEq, Prod.mk.injEq] at h
          obtain ⟨ho, hr⟩ := h
          subst ho; subst hr
          have hlink : link.data = "https://github.com/".data ++ rest :=
            (startsWithChars_some_iff _ _ _).mp hs
          have hrest : rest = rest.takeWhile (fun c => !(c = '/')) ++
              ('/' :: rest2) := by
            conv_lhs => rw [← List.takeWhile_append_dropWhile (p := fun c => !(c = '/')) (l := rest)]
            rw [hdrop]
          have hrest2 : rest2 = rest2.takeWhile (fun c => !(c = '/')) ++
              rest2.dropWhile (fun c => !(c = '/')) :=
            (List.takeWhile_append_dropWhile (p := fun c => !(c = '/')) (l := rest2)).symm
          refine ⟨?_, ?_, ?_, rest2.takeWhile (fun c => !(c = '/')),
            rest2.dropWhile (fun c => !(c = '/')), ?_, hseg, ?_, ?_, ?_, ?_⟩
          · intro he
            apply horg
            have := congrArg String.data he
            simpa using this
          · intro ch hch
            have := List.mem_takeWhile_imp hch
            simpa using this
          · intro ch hch
            have hch2 : ch ∈ removeGitSuffix (rest2.takeWhile (fun c => !(c = '/'))) := hch
            unfold removeGitSuffix at hch2
            have hsub : ch ∈ rest2.takeWhile (fun c => !(c = '/')) := by
              by_cases hgit : isSuffixOfChars ".git".data (rest2.takeWhile (fun c => !(c = '/'))) = true
              · rw [if_pos hgit] at hch2
                exact List.take_subset _ _ hch2
              · rw [if_neg hgit] at hch2
                exact hch2
            have := List.mem_takeWhile_imp hsub
            simpa using this
          · rw [hlink]
            conv_lhs => rw [hrest]
            conv_rhs => rw [← hrest2]
            simp [List.append_assoc]
          · intro ch hch
            have := List.mem_takeWhile_imp hch
            simpa using this
          · have hnot := List.head?_dropWhile_not (fun c => !(c = '/')) rest2
            cases hd2 : rest2.dropWhile (fun c => !(c = '/')) with
            | nil => exact Or.inl rfl
            | cons x xs =>
              rw [hd2] at hnot
              simp only [List.head?] at hnot
              right
              simp only [List.head?]
              congr 1
              simpa using hnot
          · by_cases hgit : isSuffixOfChars ".git".data (rest2.takeWhile (fun c => !(c = '/'))) = true
            · left
              obtain ⟨t, ht⟩ := (isSuffixOfChars_iff _ _).mp hgit
              refine ⟨t, ht, ?_⟩
              show (removeGitSuffix (rest2.takeWhile (fun c => !(c = '/')))) = t
              unfold removeGitSuffix
              rw [if_pos hgit, ht]
              have hlen : (t ++ ".git".data).length - 4 = t.length := by
                simp [List.length_append]
              rw [hlen]
              exact List.take_left t ".git".data
            · right
              refine ⟨?_, ?_⟩
              · rintro ⟨t, ht⟩
                exact hgit ((isSuffixOfChars_iff _ _).mpr ⟨t, ht⟩)
              · show (removeGitSuffix (rest2.takeWhile (fun c => !(c = '/')))) = _
                unfold removeGitSuffix
                rw [if_neg hgit]
          · intro hrempty
            have hrdata : (removeGitSuffix (rest2.takeWhile (fun c => !(c = '/')))) = [] := by
              have := congrArg String.data hrempty
              simpa using this
            unfold removeGitSuffix at hrdata
            by_cases hgit : isSuffixOfChars ".git".data (rest2.takeWhile (fun c => !(c = '/'))) = true
            · obtain ⟨t, ht⟩ := (isSuffixOfChars_iff _ _).mp hgit
              rw [if_pos hgit, ht] at hrdata
              have hlen : (t ++ ".git".data).length - 4 = t.length := by
                simp [List.length_append]
              rw [hlen, List.take_left] at hrdata
              rw [ht, hrdata]
              rfl
            · rw [if_neg hgit] at hrdata
              exact absurd hrdata hseg

/-- Witness for the amended C8 at a concrete repository link. -/
theorem C8_amended_repo_invariant_witness :
    RepoRefInvariant "https://github.com/pola-rs/polars.git" "pola-rs" "polars" :=
  C8_amended_repo_invariant "https://github.com/pola-rs/polars.git" "pola-rs" "polars" (by decide)

theorem headLoopLog_fst_some_iff (env : Env) (t : String) :
    ∀ (ps : List String) (u : String),
    (headLoopLog env t ps).1 = some u ↔
      ∃ pre p post, ps = pre ++ p :: post ∧ u = t ++ "/" ++ p ∧
        env.head (t ++ "/" ++ p) = some 200 ∧
        ∀ q ∈ pre, ¬ env.head (t ++ "/" ++ q) = some 200 := by
  intro ps
  induction ps with
  | nil =>
    intro u
    constructor
    · intro h; exact absurd h (by simp [headLoopLog])
    · rintro ⟨pre, p, post, hps, -⟩
      exact absurd hps (by simp)
  | cons a rest ih =>
    intro u
    by_cases h200 : env.head (t ++ "/" ++ a) = some 200
    · have hL : (headLoopLog env t (a :: rest)).1 = some (t ++ "/" ++ a) := by
        simp only [headLoopLog]
        rw [if_pos h200]
      rw [hL]
      constructor
      · intro h
        injection h with h
        exact ⟨[], a, rest, rfl, h.symm, h200, by simp⟩
      · rintro ⟨pre, p, post, hps, hu, hp200, hpre⟩
        cases pre with
        | nil =>
          rw [List.nil_append] at hps
          injection hps with h1 h2
          subst h1
          rw [hu]
        | cons b pre2 =>
          rw [List.cons_append] at hps
          injection hps with h1 h2
          subst h1
          exact absurd h200 (hpre a (by simp))
    · have hL : (headLoopLog env t (a :: rest)).1 = (headLoopLog env t rest).1 := by
        simp only [headLoopLog]
        rw [if_neg h200]
      rw [hL, ih u]
      constructor
      · rintro ⟨pre, p, post, hps, hu, hp200, hpre⟩
        refine ⟨a :: pre, p, post, by rw [hps, List.cons_append], hu, hp200, ?_⟩
        intro q hq
        rcases List.mem_cons.mp hq with hqa | hqpre
        · rw [hqa]; exact h200
        · exact hpre q hqpre
      · rintro ⟨pre, p, post, hps, hu, hp200, hpre⟩
        cases pre with
        | nil =>
          rw [List.nil_append] at hps
          injection hps with h1 h2
          subst h1
          exact absurd hp200 h200
        | cons b pre2 =>
          rw [List.cons_append] at hps
          injection hps with h1 h2
          exact ⟨pre2, p, post, h2, hu, hp200, fun q hq => hpre q (by simp [hq])⟩

theorem headLoopLog_fst_none_iff (env : Env) (t : String) :
    ∀ ps : List String,
    (headLoopLog env t ps).1 = Option.none ↔
      ∀ p ∈ ps, ¬ env.head (t ++ "/" ++ p) = some 200 := by
  intro ps
  induction ps with
  | nil => simp [headLoopLog]
  | cons a rest ih =>
    by_cases h200 : env.head (t ++ "/" ++ a) = some 200
    · have hL : (headLoopLog env t (a :: rest)).1 = some (t ++ "/" ++ a) := by
        simp only [headLoopLog]
        rw [if_pos h200]
      rw [hL]
      constructor
      · intro h; exact absurd h (by simp)
      · intro h; exact absurd h200 (h a (by simp))
    · have hL : (headLoopLog env t (a :: rest)).1 = (headLoopLog env t rest).1 := by
        simp only [headLoopLog]
        rw [if_neg h200]
      rw [hL, ih]
      constructor
      · intro h p hp
        rcases List.mem_cons.mp hp with hpa | hpr
        · rw [hpa]; exact h200
        · exact h p hpr
      · intro h p hp
        exact h p (by simp [hp])

/-- C3: the Inventory Prober (`docs_intersphinx.try_intersphinx_expansions`)
normalizes the base URL (one trailing `.html`/`.htm` stripped, then trailing
`/`), probes exactly the seven suffixes in their fixed order, returns the
first URL answering 200 — network failures and non-200 codes fall through —
and returns none exactly when all seven probes fail.  Stated for base URLs
without surrounding whitespace, on which the source's initial `strip()` is
the identity. -/
theorem C3_prober_seven_suffixes_in_order (env : Env) (base : String)
    (hb : pyStrip base = base) :
    (∀ u, try_intersphinx_expansions env base = some u ↔
      ∃ pre p post,
        ["objects.inv", "stable/objects.inv", "en/stable/objects.inv",
         "latest/objects.inv", "en/latest/objects.inv",
         "doc/objects.inv", "docs/objects.inv"] = pre ++ p :: post ∧
        u = rstripSlashes (stripHtmlSuffix base) ++ "/" ++ p ∧
        env.head (rstripSlashes (stripHtmlSuffix base) ++ "/" ++ p) = some 200 ∧
        ∀ q ∈ pre, ¬ env.head (rstripSlashes (stripHtmlSuffix base) ++ "/" ++ q) = some 200) ∧
    (try_intersphinx_expansions env base = Option.none ↔
      ∀ p ∈ ["objects.inv", "stable/objects.inv", "en/stable/objects.inv",
             "latest/objects.inv", "en/latest/objects.inv",
             "doc/objects.inv", "docs/objects.inv"],
        ¬ env.head (rstripSlashes (stripHtmlSuffix base) ++ "/" ++ p) = some 200) := by
  have hn : normalizeBase base = rstripSlashes (stripHtmlSuffix base) := by
    unfold normalizeBase
    rw [hb]
  constructor
  · intro u
    unfold try_intersphinx_expansions moduleExpansions
    rw [hn]
    exact headLoopLog_fst_some_iff env _ _ u
  · unfold try_intersphinx_expansions moduleExpansions
    rw [hn]
    exact headLoopLog_fst_none_iff env _ _

/-- Environment where only `https://x.org/stable/objects.inv` exists. -/
def envProbeStable : Env where
  pypi := fun _ => Option.none
  head := fun u => if u = "https://x.org/stable/objects.inv" then some 200 else Option.none
  workflow := fun _ _ => Option.none

/-- Witness for C3: the bare `objects.inv` probe fails, the `stable/` probe
succeeds and is returned. -/
theorem C3_prober_witness :
    try_intersphinx_expansions envProbeStable "https://x.org/" =
      some "https://x.org/stable/objects.inv" := by
  have h := (C3_prober_seven_suffixes_in_order envProbeStable "https://x.org/" (by decide)).1
    "https://x.org/stable/objects.inv"
  exact h.mpr ⟨["objects.inv"], "stable/objects.inv",
    ["en/stable/objects.inv", "latest/objects.inv", "en/latest/objects.inv",
     "doc/objects.inv", "docs/objects.inv"], rfl, by decide, by decide, by decide⟩


/-- Claim-side rule on a `target-folder` lookup result: a (truthy) string
value containing the substring `stable` matches. -/
def tfStable : Option Yaml → Option String
  | some (Yaml.str v) => if !(v = "") && pyIn "stable" v then some v else Option.none
  | _ => Option.none

/-- Claim-side rule on the `with` value of a step. -/
def withStable : Yaml → Option String
  | Yaml.map wkvs => tfStable (lookupKvs wkvs "target-folder")
  | _ => Option.none

/-- Claim-side per-step rule of §4.4: a step matches when it carries a
parameter mapping (`with`) whose `target-folder` value is a (truthy) string
containing the substring `stable`; the matched value is returned. -/
def stepStableTarget : Yaml → Option String
  | Yaml.map kvs => withStable ((lookupKvs kvs "with").getD Yaml.none)
  | _ => Option.none

/-- Shape condition on a `target-folder` lookup result: absent, null or a
string. -/
def tfWF : Option Yaml → Bool
  | some (Yaml.str _) => true
  | some Yaml.none => true
  | Option.none => true
  | some _ => false

/-- Shape condition on the `with` value of a step. -/
def withWF : Yaml → Bool
  | Yaml.map wkvs => tfWF (lookupKvs wkvs "target-folder")
  | _ => true

/-- Well-shapedness of one step for the C6 statement: the step is a mapping
and, when its `with` mapping carries a `target-folder`, that value is a
string or null (so the Python loop body neither raises nor returns a
non-string). -/
def stepWFb : Yaml → Bool
  | Yaml.map kvs => withWF ((lookupKvs kvs "with").getD Yaml.none)
  | _ => false

theorem stableStepLoop_cons_match (s : Yaml) (rest : List Yaml) (v : String)
    (h : stepStableTarget s = some v) :
    stableStepLoop (s :: rest) = Except.ok (some (Yaml.str v)) := by
  cases s with
  | map kvs =>
    simp only [stepStableTarget] at h
    cases hw : (lookupKvs kvs "with").getD Yaml.none with
    | map wkvs =>
      rw [hw] at h
      simp only [withStable] at h
      cases htf : lookupKvs wkvs "target-folder" with
      | none => rw [htf] at h; exact absurd h (by simp [tfStable])
      | some tf =>
        rw [htf] at h
        cases tf with
        | str vv =>
          simp only [tfStable] at h
          by_cases hcond : (!(vv = "") && pyIn "stable" vv) = true
          · rw [if_pos hcond] at h
            injection h with h
            subst h
            have hne : (vv = "") = False := by
              rcases Bool.and_eq_true_iff.mp hcond with ⟨hne1, -⟩
              simpa using hne1
            have hst : pyIn "stable" vv = true :=
              (Bool.and_eq_true_iff.mp hcond).2
            simp [stableStepLoop, yamlGet, hw, htf, yamlTruthy, pyInYaml, hne, hst]
          · rw [if_neg hcond] at h; exact absurd h (by simp)
        | none => simp [tfStable] at h
        | bool b => simp [tfStable] at h
        | int n => simp [tfStable] at h
        | list xs => simp [tfStable] at h
        | map mkvs => simp [tfStable] at h
    | none => rw [hw] at h; simp [withStable] at h
    | bool b => rw [hw] at h; simp [withStable] at h
    | int n => rw [hw] at h; simp [withStable] at h
    | str ss => rw [hw] at h; simp [withStable] at h
    | list xs => rw [hw] at h; simp [withStable] at h
  | none => simp [stepStableTarget] at h
  | bool b => simp [stepStableTarget] at h
  | int n => simp [stepStableTarget] at h
  | str ss => simp [stepStableTarget] at h
  | list xs => simp [stepStableTarget] at h

theorem stableStepLoop_cons_nomatch (s : Yaml) (rest : List Yaml)
    (hwf : stepWFb s = true) (h : stepStableTarget s = Option.none) :
    stableStepLoop (s :: rest) = stableStepLoop rest := by
  cases s with
  | map kvs =>
    simp only [stepStableTarget] at h
    simp only [stepWFb] at hwf
    cases hw : (lookupKvs kvs "with").getD Yaml.none with
    | map wkvs =>
      rw [hw] at h hwf
      simp only [withStable] at h
      simp only [withWF] at hwf
      cases htf : lookupKvs wkvs "target-folder" with
      | none =>
        simp [stableStepLoop, yamlGet, hw, htf, yamlTruthy]
      | some tf =>
        rw [htf] at h hwf
        cases tf with
        | str vv =>
          simp only [tfStable] at h
          by_cases hvv : vv = ""
          · simp [stableStepLoop, yamlGet, hw, htf, yamlTruthy, hvv]
          · have hst : pyIn "stable" vv = false := by
              by_cases hst2 : pyIn "stable" vv = true
              · rw [if_pos (by simp [hvv, hst2])] at h
                exact absurd h (by simp)
              · simpa using hst2
            simp [stableStepLoop, yamlGet, hw, htf, yamlTruthy, hvv, pyInYaml, hst]
        | none =>
          simp [stableStepLoop, yamlGet, hw, htf, yamlTruthy]
        | bool b => simp [tfWF] at hwf
        | int n => simp [tfWF] at hwf
        | list xs => simp [tfWF] at hwf
        | map mkvs => simp [tfWF] at hwf
    | none => simp [stableStepLoop, yamlGet, hw]
    | bool b => simp [stableStepLoop, yamlGet, hw]
    | int n => simp [stableStepLoop, yamlGet, hw]
    | str ss => simp [stableStepLoop, yamlGet, hw]
    | list xs => simp [stableStepLoop, yamlGet, hw]
  | none => simp [stepWFb] at hwf
  | bool b => simp [stepWFb] at hwf
  | int n => simp [stepWFb] at hwf
  | str ss => simp [stepWFb] at hwf
  | list xs => simp [stepWFb] at hwf

theorem stableStepLoop_skip_all :
    ∀ (pre rest : List Yaml), (∀ t ∈ pre, stepWFb t = true) →
    (∀ t ∈ pre, stepStableTarget t = Option.none) →
    stableStepLoop (pre ++ rest) = stableStepLoop rest := by
  intro pre
  induction pre with
  | nil => intro rest _ _; rfl
  | cons a pre2 ih =>
    intro rest hwf hn
    rw [List.cons_append,
      stableStepLoop_cons_nomatch a (pre2 ++ rest) (hwf a (by simp)) (hn a (by simp))]
    exact ih rest (fun t ht => hwf t (by simp [ht])) (fun t ht => hn t (by simp [ht]))

/-- C6: on a workflow document whose `jobs`/`build-python-docs`/`steps`
chain yields a list of well-shaped steps, the parser returns the
`target-folder` of the first step matching the stable rule — the
decomposition makes the conclusion independent of every step after the
first match — and returns none when no step matches. -/
theorem C6_first_matching_step_wins (config : Yaml) (stepsL : List Yaml)
    (hsteps : docSteps config = Except.ok stepsL)
    (hwf : ∀ st ∈ stepsL, stepWFb st = true) :
    (∀ pre s post v, stepsL = pre ++ s :: post →
      (∀ t ∈ pre, stepStableTarget t = Option.none) → stepStableTarget s = some v →
      parse_stable_subfolder (some config) = Except.ok (some (Yaml.str v))) ∧
    ((∀ t ∈ stepsL, stepStableTarget t = Option.none) →
      parse_stable_subfolder (some config) = Except.ok Option.none) := by
  have hparse : parse_stable_subfolder (some config) = stableStepLoop stepsL := by
    simp only [parse_stable_subfolder, hsteps]
  constructor
  · intro pre s post v hdec hpre hs
    rw [hparse, hdec]
    rw [stableStepLoop_skip_all pre (s :: post)
      (fun t ht => hwf t (by rw [hdec]; simp [ht])) hpre]
    exact stableStepLoop_cons_match s post v hs
  · intro hall
    rw [hparse]
    have := stableStepLoop_skip_all stepsL [] hwf hall
    rw [List.append_nil] at this
    rw [this]
    rfl

/-- First step of the two-stable-steps fixture. -/
def stepStableA : Yaml :=
  Yaml.map [("with", Yaml.map [("target-folder", Yaml.str "python/stable")])]

/-- Second step of the two-stable-steps fixture; it also matches. -/
def stepStableB : Yaml :=
  Yaml.map [("uses", Yaml.str "deploy"),
    ("with", Yaml.map [("target-folder", Yaml.str "another/stable")])]

/-- Workflow document with two matching steps under `build-python-docs`. -/
def wfTwoStableDoc : Yaml :=
  Yaml.map [("jobs", Yaml.map
    [("build-python-docs", Yaml.map
      [("steps", Yaml.list [stepStableA, stepStableB])])])]

/-- Witness for C6: with two matching steps the parser returns the first
step's target folder; the second matching step does not influence the
result. -/
theorem C6_first_matching_step_wins_witness :
    stepStableTarget stepStableB = some "another/stable" ∧
    parse_stable_subfolder (some wfTwoStableDoc) =
      Except.ok (some (Yaml.str "python/stable")) := by
  refine ⟨rfl, ?_⟩
  have h := (C6_first_matching_step_wins wfTwoStableDoc [stepStableA, stepStableB] rfl
    (by intro st hst; rcases List.mem_cons.mp hst with h1 | h2
        · rw [h1]; rfl
        · rw [List.mem_singleton.mp h2]; rfl)).1
    [] stepStableA [stepStableB] "python/stable" rfl (by simp) rfl
  exact h

theorem coreExpansions_objects_inv :
    ∀ p ∈ coreExpansions, ∃ w, p = w ++ "objects.inv" := by
  intro p hp
  simp only [coreExpansions, List.mem_cons, List.not_mem_nil, or_false] at hp
  rcases hp with h | h | h | h | h <;> subst h
  · exact ⟨"", rfl⟩
  · exact ⟨"stable/", rfl⟩
  · exact ⟨"en/stable/", rfl⟩
  · exact ⟨"latest/", rfl⟩
  · exact ⟨"en/latest/", rfl⟩

theorem headLoopLog_fst_objects_inv (env : Env) (t : String) (ps : List String)
    (hps : ∀ p ∈ ps, ∃ w, p = w ++ "objects.inv") (u : String)
    (h : (headLoopLog env t ps).1 = some u) : ∃ v, u = v ++ "objects.inv" := by
  rcases (headLoopLog_fst_some_iff env t ps u).mp h with ⟨pre, p, post, hdec, hu, -, -⟩
  rcases hps p (by rw [hdec]; simp) with ⟨w, hw⟩
  refine ⟨t ++ "/" ++ w, ?_⟩
  rw [hu, hw]
  simp [String.append_assoc]

theorem headLoopLog_log_objects_inv (env : Env) (t : String) :
    ∀ ps : List String, (∀ p ∈ ps, ∃ w, p = w ++ "objects.inv") →
    ∀ url, Request.headReq url ∈ (headLoopLog env t ps).2 →
    ∃ v, url = v ++ "objects.inv" := by
  intro ps
  induction ps with
  | nil => intro _ url hmem; simp [headLoopLog] at hmem
  | cons a rest ih =>
    intro hps url hmem
    have ha : ∃ w, t ++ "/" ++ a = (t ++ "/" ++ w) ++ "objects.inv" := by
      rcases hps a (by simp) with ⟨w, hw⟩
      exact ⟨w, by rw [hw]; simp [String.append_assoc]⟩
    by_cases h200 : env.head (t ++ "/" ++ a) = some 200
    · have hlog : (headLoopLog env t (a :: rest)).2 = [Request.headReq (t ++ "/" ++ a)] := by
        simp only [headLoopLog]
        rw [if_pos h200]
      rw [hlog] at hmem
      rcases List.mem_singleton.mp hmem with heq
      injection heq with h1
      rcases ha with ⟨w, hw⟩
      exact ⟨t ++ "/" ++ w, by rw [h1, hw]⟩
    · have hlog : (headLoopLog env t (a :: rest)).2 =
          Request.headReq (t ++ "/" ++ a) :: (headLoopLog env t rest).2 := by
        simp only [headLoopLog]
        rw [if_neg h200]
      rw [hlog] at hmem
      rcases List.mem_cons.mp hmem with heq | hmem2
      · injection heq with h1
        rcases ha with ⟨w, hw⟩
        exact ⟨t ++ "/" ++ w, by rw [h1, hw]⟩
      · exact ih (fun p hp => hps p (by simp [hp])) url hmem2

theorem probeCandidate_fst_objects_inv (env : Env) (c : Option String) (u : String)
    (h : (probeCandidate env c).1 = some u) : ∃ v, u = v ++ "objects.inv" := by
  cases c with
  | none => exact absurd h (by simp [probeCandidate])
  | some cc =>
    simp only [probeCandidate] at h
    by_cases hcc : cc = ""
    · rw [if_pos hcc] at h; exact absurd h (by simp)
    · rw [if_neg hcc] at h
      exact headLoopLog_fst_objects_inv env _ _ coreExpansions_objects_inv u h

theorem probeCandidate_log_objects_inv (env : Env) (c : Option String) (url : String)
    (h : Request.headReq url ∈ (probeCandidate env c).2) :
    ∃ v, url = v ++ "objects.inv" := by
  cases c with
  | none => exact absurd h (by simp [probeCandidate])
  | some cc =>
    simp only [probeCandidate] at h
    by_cases hcc : cc = ""
    · rw [if_pos hcc] at h; exact absurd h (by simp)
    · rw [if_neg hcc] at h
      exact headLoopLog_log_objects_inv env _ coreExpansions coreExpansions_objects_inv url h

theorem append_slash_objects_inv (X : String) :
    X ++ "/objects.inv" = (X ++ "/") ++ "objects.inv" := by
  rw [String.append_assoc]
  have h : ("/" ++ "objects.inv" : String) = "/objects.inv" := by decide
  rw [h]

theorem stepD_fst_objects_inv (env : Env) (data : PackageMetadata)
    (dc sc : Option String) (u : String)
    (h : (stepD env data dc sc).1 = Except.ok (some u)) :
    ∃ v, u = v ++ "objects.inv" := by
  unfold stepD at h
  repeat' split at h
  all_goals simp at h
  all_goals exact ⟨_, by rw [← h]; exact append_slash_objects_inv _⟩

theorem stepD_log_objects_inv (env : Env) (data : PackageMetadata)
    (dc sc : Option String) (url : String)
    (h : Request.headReq url ∈ (stepD env data dc sc).2) :
    ∃ v, url = v ++ "objects.inv" := by
  unfold stepD at h
  repeat' split at h
  all_goals simp at h
  all_goals exact ⟨_, by (first | rw [← h] | rw [h]); exact append_slash_objects_inv _⟩

theorem stepsBCD_fst_objects_inv (env : Env) (data : PackageMetadata) (u : String)
    (h : (stepsBCD env data).1 = Except.ok (some u)) : ∃ v, u = v ++ "objects.inv" := by
  simp only [stepsBCD] at h
  split at h
  · rename_i inv_url heq
    simp at h
    rw [← h]
    exact probeCandidate_fst_objects_inv env _ inv_url heq
  · split at h
    · rename_i inv_url heq
      simp at h
      rw [← h]
      exact probeCandidate_fst_objects_inv env _ inv_url heq
    · simp only at h
      exact stepD_fst_objects_inv env data _ _ u h

theorem stepsBCD_log_objects_inv (env : Env) (data : PackageMetadata) (url : String)
    (h : Request.headReq url ∈ (stepsBCD env data).2) : ∃ v, url = v ++ "objects.inv" := by
  simp only [stepsBCD] at h
  split at h
  · simp only at h
    exact probeCandidate_log_objects_inv env _ url h
  · split at h
    · simp only at h
      rcases List.mem_append.mp h with h1 | h1
      · exact probeCandidate_log_objects_inv env _ url h1
      · exact probeCandidate_log_objects_inv env _ url h1
    · simp only at h
      rcases List.mem_append.mp h with h1 | h1
      · rcases List.mem_append.mp h1 with h2 | h2
        · exact probeCandidate_log_objects_inv env _ url h2
        · exact probeCandidate_log_objects_inv env _ url h2
      · exact stepD_log_objects_inv env data _ _ url h1

/-- C10: whenever the orchestrator returns a non-absent result, the returned
URL ends with `objects.inv`, and so does every URL it probed with a HEAD
request: expansion probes are a normalized base joined with a suffix ending
in `objects.inv`, and the workflow-fallback guess ends in `/objects.inv` by
construction. -/
theorem C10_nonabsent_result_ends_objects_inv (env : Env) (pkg u : String)
    (log : List Request)
    (h : get_intersphinx_url env pkg = (Except.ok (some u), log)) :
    (∃ v, u = v ++ "objects.inv") ∧
    (∀ url, Request.headReq url ∈ log → ∃ v, url = v ++ "objects.inv") := by
  unfold get_intersphinx_url at h
  split at h
  · simp at h
  · rw [Prod.ext_iff] at h
    obtain ⟨h1, h2⟩ := h
    simp only at h1 h2
    refine ⟨stepsBCD_fst_objects_inv env _ u h1, ?_⟩
    intro url hmem
    rw [← h2] at hmem
    rcases List.mem_cons.mp hmem with habs | hmem2
    · exact absurd habs (by simp)
    · exact stepsBCD_log_objects_inv env _ url hmem2

/-- Witness for C10 at the concrete fallback environment: the returned URL
and the one probed URL both end with `objects.inv`. -/
theorem C10_nonabsent_result_witness :
    (∃ v, "https://docs.pola.rs/api/python/stable/objects.inv" = v ++ "objects.inv") ∧
    (∀ url, Request.headReq url ∈
        [Request.getPypi "polars", Request.getWorkflow "pola-rs" "polars",
         Request.headReq "https://docs.pola.rs/api/python/stable/objects.inv"] →
      ∃ v, url = v ++ "objects.inv") :=
  C10_nonabsent_result_ends_objects_inv envHardcoded "polars" _ _ rfl

/-- Claim-side predicate: at index `i` of the character list a qualifying
path segment starts — a `/` followed by `stable` or `latest`, followed by a
separator or the end of the string. -/
def QualAt (l : List Char) (i : Nat) (seg : String) : Prop :=
  (seg = "stable" ∨ seg = "latest") ∧
  ∃ rest, l.drop i = ('/' :: seg.data) ++ rest ∧ (rest = [] ∨ rest.head? = some '/')

theorem boundaryOk_iff (r : List Char) :
    boundaryOk r = true ↔ (r = [] ∨ r.head? = some '/') := by
  cases r with
  | nil => simp [boundaryOk]
  | cons c cs => simp [boundaryOk, List.head?]

theorem segHere_some_iff (l : List Char) (seg : String) :
    segHere l = some seg ↔
      ((seg = "stable" ∨ seg = "latest") ∧
        ∃ rest, l = ('/' :: seg.data) ++ rest ∧ (rest = [] ∨ rest.head? = some '/')) := by
  unfold segHere
  split
  · rename_i r hs
    have hl : l = "/stable".data ++ r := (startsWithChars_some_iff _ _ _).mp hs
    by_cases hb : boundaryOk r = true
    · rw [if_pos hb]
      constructor
      · intro he
        injection he with he
        subst he
        exact ⟨Or.inl rfl, r, hl, (boundaryOk_iff r).mp hb⟩
      · rintro ⟨hseg, rest, hrest, hbnd⟩
        rcases hseg with h1 | h1
        · subst h1; rfl
        · subst h1
          rw [hl] at hrest
          simp at hrest
    · rw [if_neg hb]
      constructor
      · intro he; exact absurd he (by simp)
      · rintro ⟨hseg, rest, hrest, hbnd⟩
        exfalso
        rcases hseg with h1 | h1
        · subst h1
          rw [hl] at hrest
          have hr : r = rest := by simpa using hrest
          subst hr
          exact hb ((boundaryOk_iff r).mpr hbnd)
        · subst h1
          rw [hl] at hrest
          simp at hrest
  · rename_i hs
    split
    · rename_i r hs2
      have hl : l = "/latest".data ++ r := (startsWithChars_some_iff _ _ _).mp hs2
      by_cases hb : boundaryOk r = true
      · rw [if_pos hb]
        constructor
        · intro he
          injection he with he
          subst he
          exact ⟨Or.inr rfl, r, hl, (boundaryOk_iff r).mp hb⟩
        · rintro ⟨hseg, rest, hrest, hbnd⟩
          rcases hseg with h1 | h1
          · subst h1
            exact absurd ((startsWithChars_some_iff _ _ _).mpr hrest) (by rw [hs]; simp)
          · subst h1; rfl
      · rw [if_neg hb]
        constructor
        · intro he; exact absurd he (by simp)
        · rintro ⟨hseg, rest, hrest, hbnd⟩
          exfalso
          rcases hseg with h1 | h1
          · subst h1
            exact absurd ((startsWithChars_some_iff _ _ _).mpr hrest) (by rw [hs]; simp)
          · subst h1
            rw [hl] at hrest
            have hr : r = rest := by simpa using hrest
            subst hr
            exact hb ((boundaryOk_iff r).mpr hbnd)
    · rename_i hs2
      constructor
      · intro he; exact absurd he (by simp)
      · rintro ⟨hseg, rest, hrest, hbnd⟩
        exfalso
        rcases hseg with h1 | h1
        · subst h1
          exact absurd ((startsWithChars_some_iff _ _ _).mpr hrest) (by rw [hs]; simp)
        · subst h1
          exact absurd ((startsWithChars_some_iff _ _ _).mpr hrest) (by rw [hs2]; simp)

theorem qualAt_iff (l : List Char) (i : Nat) (seg : String) :
    QualAt l i seg ↔ segHere (l.drop i) = some seg := by
  unfold QualAt
  rw [segHere_some_iff]

theorem scanStableLatest_some_iff :
    ∀ (l pre : List Char) (b : String),
    scanStableLatest pre l = some b ↔
      ∃ i seg, QualAt l i seg ∧ (∀ j s2, j < i → ¬ QualAt l j s2) ∧
        b = String.mk (pre ++ l.take i) ++ "/" ++ seg := by
  intro l
  induction l with
  | nil =>
    intro pre b
    constructor
    · intro h; exact absurd h (by simp [scanStableLatest])
    · rintro ⟨i, seg, ⟨-, rest, hd, -⟩, -, -⟩
      simp at hd
  | cons c cs ih =>
    intro pre b
    unfold scanStableLatest
    cases hseg : segHere (c :: cs) with
    | some s0 =>
      constructor
      · intro h
        injection h with h
        refine ⟨0, s0, ?_, ?_, ?_⟩
        · rw [qualAt_iff]
          simpa using hseg
        · intro j s2 hj
          exact absurd hj (Nat.not_lt_zero j)
        · rw [← h]
          simp
      · rintro ⟨i, seg, hq, hmin, hb⟩
        cases i with
        | zero =>
          have hq2 : segHere (c :: cs) = some seg := by
            have := (qualAt_iff _ _ _).mp hq
            simpa using this
          rw [hseg] at hq2
          injection hq2 with hq2
          subst hq2
          rw [hb]
          simp
        | succ j2 =>
          exfalso
          apply hmin 0 s0 (Nat.succ_pos j2)
          rw [qualAt_iff]
          simpa using hseg
    | none =>
      rw [ih (pre ++ [c]) b]
      constructor
      · rintro ⟨i, seg, hq, hmin, hb⟩
        refine ⟨i + 1, seg, ?_, ?_, ?_⟩
        · rw [qualAt_iff, List.drop_succ_cons]
          exact (qualAt_iff _ _ _).mp hq
        · intro j s2 hj
          cases j with
          | zero =>
            intro hq2
            have := (qualAt_iff _ _ _).mp hq2
            rw [List.drop_zero, hseg] at this
            exact absurd this (by simp)
          | succ j2 =>
            intro hq2
            apply hmin j2 s2 (Nat.lt_of_succ_lt_succ hj)
            rw [qualAt_iff]
            have := (qualAt_iff _ _ _).mp hq2
            rwa [List.drop_succ_cons] at this
        · rw [hb, List.take_succ_cons]
          simp
      · rintro ⟨i, seg, hq, hmin, hb⟩
        cases i with
        | zero =>
          exfalso
          have := (qualAt_iff _ _ _).mp hq
          rw [List.drop_zero, hseg] at this
          exact absurd this (by simp)
        | succ i2 =>
          refine ⟨i2, seg, ?_, ?_, ?_⟩
          · rw [qualAt_iff]
            have := (qualAt_iff _ _ _).mp hq
            rwa [List.drop_succ_cons] at this
          · intro j s2 hj
            intro hq2
            apply hmin (j + 1) s2 (Nat.succ_lt_succ hj)
            rw [qualAt_iff, List.drop_succ_cons]
            exact (qualAt_iff _ _ _).mp hq2
          · rw [hb, List.take_succ_cons]
            simp

theorem searchStableLatest_some_iff (link b : String) :
    searchStableLatest link = some b ↔
      ∃ i seg, QualAt link.data i seg ∧ (∀ j s2, j < i → ¬ QualAt link.data j s2) ∧
        b = String.mk (link.data.take i) ++ "/" ++ seg := by
  unfold searchStableLatest
  rw [scanStableLatest_some_iff]
  simp

theorem searchStableLatest_none_iff (link : String) :
    searchStableLatest link = Option.none ↔ ∀ i seg, ¬ QualAt link.data i seg := by
  constructor
  · intro h i seg hq
    have hP : ∃ n, (segHere (link.data.drop n)).isSome = true :=
      ⟨i, by rw [(qualAt_iff _ _ _).mp hq]; rfl⟩
    have hspec := Nat.find_spec hP
    rcases Option.isSome_iff_exists.mp hspec with ⟨s0, hs0⟩
    have : searchStableLatest link = some (String.mk (link.data.take (Nat.find hP)) ++ "/" ++ s0) := by
      rw [searchStableLatest_some_iff]
      refine ⟨Nat.find hP, s0, (qualAt_iff _ _ _).mpr hs0, ?_, rfl⟩
      intro j s2 hj hq2
      apply Nat.find_min hP hj
      rw [(qualAt_iff _ _ _).mp hq2]
      rfl
    rw [h] at this
    exact absurd this (by simp)
  · intro hall
    cases hcase : searchStableLatest link with
    | none => rfl
    | some b =>
      rcases (searchStableLatest_some_iff link b).mp hcase with ⟨i, seg, hq, -, -⟩
      exact absurd hq (hall i seg)

/-- Metadata whose single candidate URL contains two qualifying segments:
`stable` and then `latest` at the end of the string. -/
def metaStableLatest : PackageMetadata :=
  ⟨[("Docs", "https://x.org/stable/latest")], Option.none⟩

/-- C4 counterexample: on `https://x.org/stable/latest` the whole URL is
itself a prefix ending in a qualifying segment (`latest` at index 20,
followed by the end of the string), so the longest such prefix is the whole
URL; the extractor nevertheless returns the shorter `https://x.org/stable`
— the lazy `.*?` in the source regex selects the leftmost (shortest) match,
not the longest. -/
theorem C4_longest_prefix_counterexample :
    QualAt "https://x.org/stable/latest".data 20 "latest" ∧
    ("https://x.org/stable/latest" : String) =
      String.mk ("https://x.org/stable/latest".data.take 20) ++ "/" ++ "latest" ∧
    find_stable_latest_link metaStableLatest = some "https://x.org/stable" ∧
    find_stable_latest_link metaStableLatest ≠ some "https://x.org/stable/latest" := by
  refine ⟨⟨Or.inr rfl, [], ?_, Or.inl rfl⟩, ?_, ?_, ?_⟩
  · decide
  · decide
  · decide
  · decide

/-- C4 amended: the extractor returns, for the first candidate URL (in
`project_urls` order, then the home page) containing a qualifying
`stable`/`latest` segment, the prefix up to and including the leftmost
(hence shortest, not longest) such segment; it returns none exactly when no
candidate contains one. -/
theorem C4_amended_leftmost_segment (m : PackageMetadata) :
    (∀ b, find_stable_latest_link m = some b ↔
      ∃ pre link post, urlCandidates m = pre ++ link :: post ∧
        (∀ l2 ∈ pre, ∀ i seg, ¬ QualAt l2.data i seg) ∧
        ∃ i seg, QualAt link.data i seg ∧ (∀ j s2, j < i → ¬ QualAt link.data j s2) ∧
          b = String.mk (link.data.take i) ++ "/" ++ seg) ∧
    (find_stable_latest_link m = Option.none ↔
      ∀ l2 ∈ urlCandidates m, ∀ i seg, ¬ QualAt l2.data i seg) := by
  constructor
  · intro b
    unfold find_stable_latest_link
    rw [List.findSome?_eq_some_iff]
    constructor
    · rintro ⟨pre, link, post, hdec, hsome, hpre⟩
      exact ⟨pre, link, post, hdec,
        fun l2 hl2 => (searchStableLatest_none_iff l2).mp (hpre l2 hl2),
        (searchStableLatest_some_iff link b).mp hsome⟩
    · rintro ⟨pre, link, post, hdec, hpre, hex⟩
      exact ⟨pre, link, post, hdec, (searchStableLatest_some_iff link b).mpr hex,
        fun x hx => (searchStableLatest_none_iff x).mpr (hpre x hx)⟩
  · unfold find_stable_latest_link
    rw [List.findSome?_eq_none_iff]
    constructor
    · intro h l2 hl2
      exact (searchStableLatest_none_iff l2).mp (h l2 hl2)
    · intro h l2 hl2
      exact (searchStableLatest_none_iff l2).mpr (h l2 hl2)

/-- Metadata with the pytest-style changelog URL. -/
def metaPytest : PackageMetadata :=
  ⟨[("Changelog", "https://docs.pytest.org/en/stable/changelog.html")], Option.none⟩

/-- Witness for the amended C4: the qualifying segment at index 26 is the
leftmost one, and the extractor trims just after it. -/
theorem C4_amended_leftmost_segment_witness :
    find_stable_latest_link metaPytest = some "https://docs.pytest.org/en/stable" := by
  have h := (C4_amended_leftmost_segment metaPytest).1 "https://docs.pytest.org/en/stable"
  apply h.mpr
  refine ⟨[], "https://docs.pytest.org/en/stable/changelog.html", [], rfl, by simp,
    26, "stable", ?_, ?_, ?_⟩
  · rw [qualAt_iff]
    decide
  · intro j s2 hj hq
    have hnone : ∀ j2, j2 < 26 →
        segHere ("https://docs.pytest.org/en/stable/changelog.html".data.drop j2) =
          Option.none := by decide
    have hsh := (qualAt_iff _ _ _).mp hq
    rw [hnone j hj] at hsh
    exact absurd hsh (by simp)
  · decide
